import Mathlib

/-!
Verification of the scanline region builder of the valora rasterizer
(`src/amicola/src/regions.rs`).

The embedding models the `f32` quantities that the region walk only ever
compares (the `y_range` bounds of a `Hit`, the `t` parameter of a `RawHit`)
as rationals; `isize` coordinates become `Int` and `usize` ids become `Nat`.
The walk in `RegionList::regions` is a fold with explicit state
(`y`, `last_hit`, `winding_number`), embedded below as `stepRegions` /
`regionsAux`.  `BTreeSet<Hit>` is embedded as a strictly sorted list with an
insertion function `insertHit` that keeps the existing element when the
comparator answers `Equal`, which is the documented behaviour of
`BTreeSet::insert`.
-/

namespace Valora

/-- `std::f32::EPSILON` (2⁻²³), used by the region walk's `contains` tests. -/
def EPS : ℚ := 1 / 2 ^ 23

/-- `std::f32::EPSILON * 10.`, the tolerance of `RawHit::cmp`. -/
def EPS10 : ℚ := 10 / 2 ^ 23

/-- `struct Hit` from regions.rs: pixel coordinates, the `y_range` of the
two raw hits it joins (`yStart ≤ v < yEnd` is `Range::contains`), and the id
of the segment that produced it. -/
structure Hit where
  x : Int
  y : Int
  yStart : ℚ
  yEnd : ℚ
  segment_id : Nat
deriving DecidableEq, Repr

/-- `enum Region` from regions.rs. -/
inductive Region where
  | Boundary (x y : Int)
  | Span (start_x end_x y : Int)
deriving DecidableEq, Repr

/-- `enum ShadeCommand` from regions.rs, with coverage as a rational. -/
inductive ShadeCommand where
  | Boundary (x y : Int) (coverage : ℚ)
  | Span (start_x end_x y : Int)
deriving DecidableEq, Repr

/-- `Hit::partial_cmp`: lexicographic on `(y, x)`, always `Some`. -/
def hitCmpOpt (a b : Hit) : Option Ordering :=
  match compare a.y b.y with
  | Ordering.eq => some (compare a.x b.x)
  | o => some o

/-- `Hit::cmp`: `self.partial_cmp(other).unwrap()`.  The `none` branch is the
panic branch of `unwrap`; `no_runtime_failure` shows it is unreachable. -/
def hitCmp (a b : Hit) : Ordering :=
  match hitCmpOpt a b with
  | some o => o
  | none => Ordering.eq

/-- `Hit::eq`: equality uses only the pixel coordinates. -/
def hitBEq (a b : Hit) : Bool :=
  a.x == b.x && a.y == b.y

/-- `Hit::hash` feeds exactly `x` then `y` to the hasher; we model the data
it depends on. -/
def hitHash (h : Hit) : Int × Int := (h.x, h.y)

/-- `struct RawHit`: a position on the curve and its parameter `t`. -/
structure RawHit where
  px : ℚ
  py : ℚ
  t : ℚ
deriving DecidableEq, Repr

/-- `RawHit::cmp`: `Equal` within `10·ε`, otherwise the `FloatOrd` order on
`t` (which on NaN-free values is the numeric order). -/
def rawCmp (a b : RawHit) : Ordering :=
  if |a.t - b.t| ≤ EPS10 then Ordering.eq
  else if a.t < b.t then Ordering.lt else Ordering.gt

/-- `BTreeSet<Hit>::insert` on the sorted-list model: walk to the insertion
point; when the comparator answers `Equal` the set is left unchanged (the
first inserted element survives). -/
def insertHit (h : Hit) : List Hit → List Hit
  | [] => [h]
  | a :: t =>
    match hitCmp h a with
    | Ordering.lt => h :: a :: t
    | Ordering.eq => a :: t
    | Ordering.gt => a :: insertHit h t

/-- The global hit set of `RegionList::from`: every candidate `Hit`, in
insertion order, inserted into a `BTreeSet<Hit>`. -/
def buildHits (cands : List Hit) : List Hit :=
  cands.foldl (fun acc h => insertHit h acc) []

/-- `BTreeSet<RawHit>::insert` on the sorted-list model. -/
def insertRaw (r : RawHit) : List RawHit → List RawHit
  | [] => [r]
  | a :: t =>
    match rawCmp r a with
    | Ordering.lt => r :: a :: t
    | Ordering.eq => a :: t
    | Ordering.gt => a :: insertRaw r t

/-- Modelled from the spec: `ext::min_max` (the `ext` module is not part of
the sources); §4.3 defines `y_range = (min(a.y, b.y), max(a.y, b.y))`. -/
def minMax (a b : ℚ) : ℚ × ℚ := (min a b, max a b)

/-- `tuple_windows::<(_, _)>()`: consecutive pairs of a list. -/
def pairsOf (l : List RawHit) : List (RawHit × RawHit) := l.zip l.tail

/-- The join loop of `RegionList::from`: each consecutive pair of raw hits
becomes a `Hit` at the floor of the midpoint, carrying the pair's y-range. -/
def hitsFromRaw (segId : Nat) (raw : List RawHit) : List Hit :=
  (pairsOf raw).map fun p =>
    let mm := minMax p.1.py p.2.py
    { x := Int.floor ((p.1.px + p.2.px) / (2 : ℚ))
      y := Int.floor ((p.1.py + p.2.py) / (2 : ℚ))
      yStart := mm.1
      yEnd := mm.2
      segment_id := segId }

/-- Modelled from the spec: the grid-line iterator (`grid_lines.rs` is not
part of the sources); §4.1: integers `h` with `⌈lo⌉ ≤ h ≤ ⌊hi⌋`, excluding
values equal to `lo` or `hi`. -/
def gridLinesIn (lo hi : ℚ) : List Int :=
  ((List.range (Int.floor hi - Int.ceil lo + 1).toNat).map
      fun i => Int.ceil lo + (i : Int)).filter
    fun h => !(((h : ℚ) == lo) || ((h : ℚ) == hi))

/-- Modelled from the spec: the raw-hit set a degenerate segment (both
endpoints at `(px, py)`) contributes in `RegionList::from`.  Its bounds are
the single point, so `gridLinesIn` is empty in both directions and only the
two bookend raw hits (`t = 0` and `t = 1`) are inserted. -/
def degenerateRawHits (px py : ℚ) : List RawHit :=
  insertRaw ⟨px, py, 1⟩ (insertRaw ⟨px, py, 0⟩ [])

/-- The hits a degenerate segment contributes to the global set. -/
def degenerateSegmentHits (px py : ℚ) (segId : Nat) : List Hit :=
  hitsFromRaw segId (degenerateRawHits px py)

/-- The mutable state of the `RegionList::regions` walk. -/
structure WalkState where
  y : Int
  last : Option Hit
  winding : Nat
deriving DecidableEq, Repr

/-- The row-transition reset at the top of the walk body. -/
def resetState (s : WalkState) (hit : Hit) : WalkState :=
  if hit.y ≠ s.y then ⟨hit.y, none, 0⟩ else s

/-- `is_gap_between_hits`: the absolute pixel distance exceeds one. -/
def isGapBetweenHits (last : Option Hit) (hit : Hit) : Bool :=
  match last with
  | some lh => decide (1 < (lh.x - hit.x).natAbs)
  | none => false

/-- `Range::<f32>::contains`: `lo ≤ v && v < hi`. -/
def rangeContains (lo hi v : ℚ) : Bool :=
  decide (lo ≤ v) && decide (v < hi)

/-- `is_new_edge` from the walk body. -/
def isNewEdge (last : Option Hit) (hit : Hit) (gap : Bool) : Bool :=
  match last with
  | some lh =>
    decide (lh.segment_id ≠ hit.segment_id) &&
      (gap ||
        rangeContains lh.yStart lh.yEnd hit.yStart ||
        rangeContains lh.yStart lh.yEnd (hit.yEnd - EPS) ||
        rangeContains hit.yStart hit.yEnd lh.yStart ||
        rangeContains hit.yStart hit.yEnd (lh.yEnd - EPS))
  | none => true

/-- The winding number after the conditional increment. -/
def windingAfter (s0 : WalkState) (hit : Hit) : Nat :=
  if isNewEdge s0.last hit (isGapBetweenHits s0.last hit) then s0.winding + 1
  else s0.winding

/-- The span (zero or one `Region::Span`) emitted for one hit, given the
already-reset state. -/
def spanOf (s0 : WalkState) (hit : Hit) : List Region :=
  match s0.last with
  | some lh =>
    if isNewEdge s0.last hit (isGapBetweenHits s0.last hit) &&
        isGapBetweenHits s0.last hit && (windingAfter s0 hit % 2 == 0) then
      [Region.Span (lh.x + 1) hit.x hit.y]
    else []
  | none => []

/-- One iteration of the walk body: the emitted regions (boundary first,
then the span, exactly as `iter::successors` yields them) and the state
passed to the next iteration. -/
def stepRegions (s : WalkState) (hit : Hit) : List Region × WalkState :=
  (Region.Boundary hit.x hit.y :: spanOf (resetState s hit) hit,
   ⟨hit.y, some hit, windingAfter (resetState s hit) hit⟩)

/-- The walk over a list of hits from an arbitrary starting state. -/
def regionsAux (s : WalkState) : List Hit → List Region
  | [] => []
  | h :: hs => (stepRegions s h).1 ++ regionsAux (stepRegions s h).2 hs

/-- `RegionList::regions`: the walk from the initial state
`y = 0`, `last_hit = None`, `winding_number = 0`. -/
def regions (hits : List Hit) : List Region := regionsAux ⟨0, none, 0⟩ hits

/-- `RegionList::shade_commands`, with the coverage estimator (code outside
the given sources) abstracted as a function of the boundary pixel. -/
def shadeCommands (cov : Int → Int → ℚ) (hits : List Hit) :
    List ShadeCommand :=
  (regions hits).map fun r =>
    match r with
    | Region.Boundary x y => ShadeCommand.Boundary x y (cov x y)
    | Region.Span sx ex y => ShadeCommand.Span sx ex y

/-! ### Spec-side predicates -/

/-- Half-open membership `v ∈ [lo, hi)`, the spec's reading of
`Range::contains`. -/
def InRange (lo hi v : ℚ) : Prop := lo ≤ v ∧ v < hi

instance (lo hi v : ℚ) : Decidable (InRange lo hi v) :=
  inferInstanceAs (Decidable (lo ≤ v ∧ v < hi))

/-- The new-edge condition of §4.4, stated as a proposition. -/
def NewEdgeProp (last : Option Hit) (hit : Hit) : Prop :=
  match last with
  | none => True
  | some lh =>
    lh.segment_id ≠ hit.segment_id ∧
      (1 < (lh.x - hit.x).natAbs ∨
        InRange lh.yStart lh.yEnd hit.yStart ∨
        InRange lh.yStart lh.yEnd (hit.yEnd - EPS) ∨
        InRange hit.yStart hit.yEnd lh.yStart ∨
        InRange hit.yStart hit.yEnd (lh.yEnd - EPS))

instance : (last : Option Hit) → (hit : Hit) → Decidable (NewEdgeProp last hit)
  | none, _ => isTrue trivial
  | some _, _ => inferInstanceAs (Decidable (_ ∧ _))

/-- The span-emission condition of §4.4: new edge, gap, and the updated
winding number (which is `w + 1` because a span requires a new edge) even. -/
def SpanCondProp (lh hit : Hit) (w : Nat) : Prop :=
  NewEdgeProp (some lh) hit ∧ 1 < (lh.x - hit.x).natAbs ∧ (w + 1) % 2 = 0

instance (lh hit : Hit) (w : Nat) : Decidable (SpanCondProp lh hit w) :=
  inferInstanceAs (Decidable (_ ∧ _ ∧ _))

/-- Strict pixel order: lexicographic on `(y, x)`. -/
def pixLt (a b : Hit) : Prop := a.y < b.y ∨ (a.y = b.y ∧ a.x < b.x)

instance (a b : Hit) : Decidable (pixLt a b) :=
  inferInstanceAs (Decidable (a.y < b.y ∨ (a.y = b.y ∧ a.x < b.x)))

/-- The key the claim assigns to a shade command: `(y, x)` for a boundary,
`(y, start_x)` for a span. -/
def cmdClaimKey : ShadeCommand → Int × Int
  | ShadeCommand.Boundary x y _ => (y, x)
  | ShadeCommand.Span sx _ y => (y, sx)

/-- Strict lexicographic order on integer pairs. -/
def keyLt (p q : Int × Int) : Prop := p.1 < q.1 ∨ (p.1 = q.1 ∧ p.2 < q.2)

instance (p q : Int × Int) : Decidable (keyLt p q) :=
  inferInstanceAs (Decidable (p.1 < q.1 ∨ (p.1 = q.1 ∧ p.2 < q.2)))

/-- The order that does hold on the stream: by row, then by right end
(`x` for a boundary, `end_x` for a span), then boundary before span. -/
def tripleLt (p q : Int × Int × Nat) : Prop :=
  p.1 < q.1 ∨ (p.1 = q.1 ∧ (p.2.1 < q.2.1 ∨ (p.2.1 = q.2.1 ∧ p.2.2 < q.2.2)))

instance (p q : Int × Int × Nat) : Decidable (tripleLt p q) :=
  inferInstanceAs
    (Decidable (p.1 < q.1 ∨ (p.1 = q.1 ∧ (p.2.1 < q.2.1 ∨ (p.2.1 = q.2.1 ∧ p.2.2 < q.2.2)))))

/-- The `(row, right end, kind)` triple of a region. -/
def regionTriple : Region → Int × Int × Nat
  | Region.Boundary x y => (y, x, 0)
  | Region.Span _ ex y => (y, ex, 1)

/-- The `(row, right end, kind)` triple of a shade command. -/
def cmdTriple : ShadeCommand → Int × Int × Nat
  | ShadeCommand.Boundary x y _ => (y, x, 0)
  | ShadeCommand.Span _ ex y => (y, ex, 1)

/-! ### Walk-body lemmas -/

theorem rangeContains_iff (lo hi v : ℚ) :
    rangeContains lo hi v = true ↔ InRange lo hi v := by
  simp [rangeContains, InRange]

theorem isGap_some_iff (lh hit : Hit) :
    isGapBetweenHits (some lh) hit = true ↔ 1 < (lh.x - hit.x).natAbs := by
  simp [isGapBetweenHits]

theorem isNewEdge_iff (last : Option Hit) (hit : Hit) :
    isNewEdge last hit (isGapBetweenHits last hit) = true ↔ NewEdgeProp last hit := by
  cases last with
  | none => simp [isNewEdge, NewEdgeProp]
  | some lh =>
    simp [isNewEdge, NewEdgeProp, isGapBetweenHits, rangeContains, InRange]
    tauto

theorem windingAfter_def (s0 : WalkState) (hit : Hit) :
    windingAfter s0 hit =
      if NewEdgeProp s0.last hit then s0.winding + 1 else s0.winding := by
  by_cases h : NewEdgeProp s0.last hit
  · have hb := (isNewEdge_iff s0.last hit).mpr h
    simp [windingAfter, hb, h]
  · have hb : isNewEdge s0.last hit (isGapBetweenHits s0.last hit) = false := by
      rcases Bool.eq_false_or_eq_true (isNewEdge s0.last hit (isGapBetweenHits s0.last hit)) with
        hb | hb
      · exact absurd ((isNewEdge_iff s0.last hit).mp hb) h
      · exact hb
    simp [windingAfter, hb, h]

theorem spanOf_eq_nil_of_none (s0 : WalkState) (hit : Hit) (h : s0.last = none) :
    spanOf s0 hit = [] := by
  unfold spanOf
  rw [h]

theorem spanOf_eq_of_some (s0 : WalkState) (hit lh : Hit) (h : s0.last = some lh) :
    spanOf s0 hit =
      if SpanCondProp lh hit s0.winding then [Region.Span (lh.x + 1) hit.x hit.y]
      else [] := by
  obtain ⟨sy, slast, sw⟩ := s0
  have h2 : slast = some lh := h
  subst h2
  dsimp only [spanOf]
  by_cases hc : SpanCondProp lh hit sw
  · obtain ⟨h1, hgap2, h3⟩ := hc
    have hgap : isGapBetweenHits (some lh) hit = true := (isGap_some_iff lh hit).mpr hgap2
    have hne : isNewEdge (some lh) hit (isGapBetweenHits (some lh) hit) = true :=
      (isNewEdge_iff (some lh) hit).mpr h1
    have hw : windingAfter ⟨sy, some lh, sw⟩ hit = sw + 1 := by
      rw [windingAfter_def]; exact if_pos h1
    rw [hne, hgap, hw, if_pos (show SpanCondProp lh hit sw from ⟨h1, hgap2, h3⟩)]
    simp [h3]
  · rw [if_neg hc]
    cases hb1 : isNewEdge (some lh) hit (isGapBetweenHits (some lh) hit) with
    | false => simp
    | true =>
      cases hb2 : isGapBetweenHits (some lh) hit with
      | false => simp
      | true =>
        have h1 : NewEdgeProp (some lh) hit := (isNewEdge_iff (some lh) hit).mp hb1
        have hg2 : 1 < (lh.x - hit.x).natAbs := (isGap_some_iff lh hit).mp hb2
        have h3 : ¬ (sw + 1) % 2 = 0 := fun h3 => hc ⟨h1, hg2, h3⟩
        have hw : windingAfter ⟨sy, some lh, sw⟩ hit = sw + 1 := by
          rw [windingAfter_def]; exact if_pos h1
        rw [hw]
        simp [h3]

theorem stepRegions_fst (s : WalkState) (hit : Hit) :
    (stepRegions s hit).1 =
      Region.Boundary hit.x hit.y :: spanOf (resetState s hit) hit := rfl

theorem stepRegions_winding (s : WalkState) (hit : Hit) :
    (stepRegions s hit).2.winding = windingAfter (resetState s hit) hit := rfl

theorem resetState_of_ne (s : WalkState) (hit : Hit) (h : hit.y ≠ s.y) :
    resetState s hit = ⟨hit.y, none, 0⟩ := by
  unfold resetState; rw [if_pos h]

theorem resetState_of_eq (s : WalkState) (hit : Hit) (h : hit.y = s.y) :
    resetState s hit = s := by
  unfold resetState; rw [if_neg (by simp [h])]

theorem resetState_last_some (s : WalkState) (hit lh : Hit)
    (h : (resetState s hit).last = some lh) : s.last = some lh ∧ hit.y = s.y := by
  by_cases hy : hit.y = s.y
  · rw [resetState_of_eq s hit hy] at h; exact ⟨h, hy⟩
  · rw [resetState_of_ne s hit hy] at h; cases h

/-! ### Hit-set lemmas -/

theorem pixLt_trans {a b c : Hit} (h1 : pixLt a b) (h2 : pixLt b c) : pixLt a c := by
  simp only [pixLt] at h1 h2 ⊢
  omega

theorem hitCmpOpt_eq (a b : Hit) : hitCmpOpt a b = some (hitCmp a b) := by
  unfold hitCmp hitCmpOpt
  cases compare a.y b.y <;> rfl

theorem hitCmp_lt_iff (a b : Hit) : hitCmp a b = Ordering.lt ↔ pixLt a b := by
  unfold hitCmp hitCmpOpt pixLt
  cases hy : compare a.y b.y with
  | lt => exact iff_of_true rfl (Or.inl (compare_lt_iff_lt.mp hy))
  | eq =>
    have hye : a.y = b.y := compare_eq_iff_eq.mp hy
    cases hx : compare a.x b.x with
    | lt => exact iff_of_true rfl (Or.inr ⟨hye, compare_lt_iff_lt.mp hx⟩)
    | eq =>
      have hxe : a.x = b.x := compare_eq_iff_eq.mp hx
      exact iff_of_false (by simp) (by omega)
    | gt =>
      have hxg : b.x < a.x := compare_gt_iff_gt.mp hx
      exact iff_of_false (by simp) (by omega)
  | gt =>
    have hyg : b.y < a.y := compare_gt_iff_gt.mp hy
    exact iff_of_false (by simp) (by omega)

theorem hitCmp_eq_iff (a b : Hit) : hitCmp a b = Ordering.eq ↔ a.y = b.y ∧ a.x = b.x := by
  unfold hitCmp hitCmpOpt
  cases hy : compare a.y b.y with
  | lt =>
    have := compare_lt_iff_lt.mp hy
    exact iff_of_false (by simp) (by omega)
  | eq =>
    have hye : a.y = b.y := compare_eq_iff_eq.mp hy
    cases hx : compare a.x b.x with
    | lt =>
      have := compare_lt_iff_lt.mp hx
      exact iff_of_false (by simp) (by omega)
    | eq => exact iff_of_true rfl ⟨hye, compare_eq_iff_eq.mp hx⟩
    | gt =>
      have := compare_gt_iff_gt.mp hx
      exact iff_of_false (by simp) (by omega)
  | gt =>
    have := compare_gt_iff_gt.mp hy
    exact iff_of_false (by simp) (by omega)

theorem hitCmp_gt_iff (a b : Hit) : hitCmp a b = Ordering.gt ↔ pixLt b a := by
  unfold hitCmp hitCmpOpt pixLt
  cases hy : compare a.y b.y with
  | lt =>
    have := compare_lt_iff_lt.mp hy
    exact iff_of_false (by simp) (by omega)
  | eq =>
    have hye : a.y = b.y := compare_eq_iff_eq.mp hy
    cases hx : compare a.x b.x with
    | lt =>
      have := compare_lt_iff_lt.mp hx
      exact iff_of_false (by simp) (by omega)
    | eq =>
      have := compare_eq_iff_eq.mp hx
      exact iff_of_false (by simp) (by omega)
    | gt => exact iff_of_true rfl (Or.inr ⟨hye.symm, compare_gt_iff_gt.mp hx⟩)
  | gt => exact iff_of_true rfl (Or.inl (compare_gt_iff_gt.mp hy))

theorem hitBEq_iff (a b : Hit) : hitBEq a b = true ↔ a.x = b.x ∧ a.y = b.y := by
  simp [hitBEq]

theorem mem_of_mem_insertHit {x h : Hit} : ∀ {l : List Hit},
    x ∈ insertHit h l → x ∈ l ∨ x = h := by
  intro l
  induction l with
  | nil => intro hx; simp only [insertHit, List.mem_singleton] at hx; exact Or.inr hx
  | cons a t ih =>
    intro hx
    unfold insertHit at hx
    cases hcmp : hitCmp h a with
    | lt =>
      rw [hcmp] at hx
      rcases List.mem_cons.mp hx with rfl | hx2
      · exact Or.inr rfl
      · exact Or.inl hx2
    | eq =>
      rw [hcmp] at hx
      exact Or.inl hx
    | gt =>
      rw [hcmp] at hx
      rcases List.mem_cons.mp hx with rfl | hx2
      · exact Or.inl (List.mem_cons_self _ _)
      · rcases ih hx2 with hx3 | hx3
        · exact Or.inl (List.mem_cons_of_mem _ hx3)
        · exact Or.inr hx3

theorem insertHit_sorted {h : Hit} : ∀ {l : List Hit},
    List.Pairwise pixLt l → List.Pairwise pixLt (insertHit h l) := by
  intro l
  induction l with
  | nil => intro _; simp [insertHit]
  | cons a t ih =>
    intro hp
    rw [List.pairwise_cons] at hp
    obtain ⟨ha, ht⟩ := hp
    unfold insertHit
    cases hcmp : hitCmp h a with
    | lt =>
      have hla : pixLt h a := (hitCmp_lt_iff h a).mp hcmp
      rw [List.pairwise_cons]
      refine ⟨?_, List.pairwise_cons.mpr ⟨ha, ht⟩⟩
      intro x hx
      rcases List.mem_cons.mp hx with rfl | hx2
      · exact hla
      · exact pixLt_trans hla (ha x hx2)
    | eq => exact List.pairwise_cons.mpr ⟨ha, ht⟩
    | gt =>
      have hag : pixLt a h := (hitCmp_gt_iff h a).mp hcmp
      rw [List.pairwise_cons]
      refine ⟨?_, ih ht⟩
      intro x hx
      rcases mem_of_mem_insertHit hx with hx2 | rfl
      · exact ha x hx2
      · exact hag

theorem mem_insertHit_iff {h : Hit} : ∀ {l : List Hit}, List.Pairwise pixLt l → ∀ x,
    (x ∈ insertHit h l ↔
      x ∈ l ∨ (x = h ∧ ∀ b ∈ l, ¬(b.y = h.y ∧ b.x = h.x))) := by
  intro l
  induction l with
  | nil => intro _ x; simp [insertHit]
  | cons a t ih =>
    intro hp x
    rw [List.pairwise_cons] at hp
    obtain ⟨ha, ht⟩ := hp
    unfold insertHit
    cases hcmp : hitCmp h a with
    | lt =>
      have hla : pixLt h a := (hitCmp_lt_iff h a).mp hcmp
      have hpa : ¬(a.y = h.y ∧ a.x = h.x) := by
        simp only [pixLt] at hla; omega
      have hpt : ∀ b ∈ t, ¬(b.y = h.y ∧ b.x = h.x) := by
        intro b hb
        have := pixLt_trans hla (ha b hb)
        simp only [pixLt] at this; omega
      simp only [List.mem_cons]
      constructor
      · rintro (rfl | hx)
        · refine Or.inr ⟨rfl, ?_⟩
          intro b hb
          rcases hb with rfl | hb2
          · exact hpa
          · exact hpt b hb2
        · exact Or.inl hx
      · rintro (hx | ⟨rfl, _⟩)
        · exact Or.inr hx
        · exact Or.inl rfl
    | eq =>
      have heq := (hitCmp_eq_iff h a).mp hcmp
      constructor
      · intro hx; exact Or.inl hx
      · rintro (hx | ⟨rfl, hna⟩)
        · exact hx
        · exact absurd ⟨heq.1.symm, heq.2.symm⟩ (hna a (List.mem_cons_self _ _))
    | gt =>
      have hag : pixLt a h := (hitCmp_gt_iff h a).mp hcmp
      have hpa : ¬(a.y = h.y ∧ a.x = h.x) := by
        simp only [pixLt] at hag; omega
      simp only [List.mem_cons, ih ht]
      constructor
      · rintro (rfl | (hx | ⟨rfl, hpt⟩))
        · exact Or.inl (Or.inl rfl)
        · exact Or.inl (Or.inr hx)
        · refine Or.inr ⟨rfl, ?_⟩
          intro b hb
          rcases hb with rfl | hb2
          · exact hpa
          · exact hpt b hb2
      · rintro ((rfl | hx) | ⟨rfl, hall⟩)
        · exact Or.inl rfl
        · exact Or.inr (Or.inl hx)
        · exact Or.inr (Or.inr ⟨rfl, fun b hb => hall b (Or.inr hb)⟩)

theorem foldl_insert_sorted : ∀ (cs acc : List Hit), List.Pairwise pixLt acc →
    List.Pairwise pixLt (List.foldl (fun l c => insertHit c l) acc cs) := by
  intro cs
  induction cs with
  | nil => intro acc h; exact h
  | cons c cs ih =>
    intro acc h
    simp only [List.foldl_cons]
    exact ih (insertHit c acc) (insertHit_sorted h)

theorem buildHits_sorted (cs : List Hit) : List.Pairwise pixLt (buildHits cs) :=
  foldl_insert_sorted cs [] (List.Pairwise.nil)

/-! ### Claim theorems C1, C2, C4 -/

/-- C2: the winding number is incremented exactly when the hit is a new
edge, where the new-edge condition is: no previous hit on the row, or the
previous hit has a different segment id and (gap, or one of the four
half-open `y_range` containment tests holds); in particular two consecutive
hits with the same segment id never increment the winding number. -/
theorem winding_increment_iff_new_edge (s : WalkState) (hit : Hit) :
    ((stepRegions s hit).2.winding = (resetState s hit).winding + 1 ↔
      NewEdgeProp (resetState s hit).last hit) ∧
    ((stepRegions s hit).2.winding = (resetState s hit).winding ↔
      ¬ NewEdgeProp (resetState s hit).last hit) ∧
    (∀ lh, (resetState s hit).last = some lh → lh.segment_id = hit.segment_id →
      (stepRegions s hit).2.winding = (resetState s hit).winding) := by
  have hw := windingAfter_def (resetState s hit) hit
  rw [stepRegions_winding, hw]
  by_cases h : NewEdgeProp (resetState s hit).last hit
  · refine ⟨by simp [h], by simp [h], ?_⟩
    intro lh hlast hseg
    rw [hlast] at h
    exact absurd hseg h.1
  · exact ⟨by simp [h], by simp [h], fun lh hlast hseg => by simp [h]⟩

/-- C2 witness: two consecutive hits of the same segment on one row do not
increment the winding number. -/
theorem winding_increment_iff_new_edge_witness :
    (resetState ⟨0, some ⟨0, 0, 0, 1, 0⟩, 1⟩ ⟨1, 0, 0, 1, 0⟩).last =
        some ⟨0, 0, 0, 1, 0⟩ ∧
      (stepRegions ⟨0, some ⟨0, 0, 0, 1, 0⟩, 1⟩ ⟨1, 0, 0, 1, 0⟩).2.winding =
        (resetState ⟨0, some ⟨0, 0, 0, 1, 0⟩, 1⟩ ⟨1, 0, 0, 1, 0⟩).winding :=
  ⟨by decide,
    (winding_increment_iff_new_edge ⟨0, some ⟨0, 0, 0, 1, 0⟩, 1⟩ ⟨1, 0, 0, 1, 0⟩).2.2
      ⟨0, 0, 0, 1, 0⟩ (by decide) rfl⟩

/-- C1: with a previous hit on the row, a span is emitted exactly when the
hit is a new edge, there is a gap, and the updated winding number is even;
the span is `Span{start_x: last_hit.x + 1, end_x: hit.x, y: hit.y}` and it
follows the boundary of the current hit.  The first hit of a row (in
particular any row transition) emits no span. -/
theorem span_emission_rule (s : WalkState) (hit : Hit) :
    (hit.y ≠ s.y → (stepRegions s hit).1 = [Region.Boundary hit.x hit.y]) ∧
    ((resetState s hit).last = none →
      (stepRegions s hit).1 = [Region.Boundary hit.x hit.y]) ∧
    (∀ lh, (resetState s hit).last = some lh →
      ((stepRegions s hit).1 =
          [Region.Boundary hit.x hit.y, Region.Span (lh.x + 1) hit.x hit.y] ↔
        SpanCondProp lh hit (resetState s hit).winding) ∧
      (¬ SpanCondProp lh hit (resetState s hit).winding →
        (stepRegions s hit).1 = [Region.Boundary hit.x hit.y])) := by
  refine ⟨?_, ?_, ?_⟩
  · intro h
    rw [stepRegions_fst, spanOf_eq_nil_of_none]
    rw [resetState_of_ne s hit h]
  · intro h
    rw [stepRegions_fst, spanOf_eq_nil_of_none _ _ h]
  · intro lh hlast
    rw [stepRegions_fst, spanOf_eq_of_some _ hit lh hlast]
    by_cases hc : SpanCondProp lh hit (resetState s hit).winding
    · rw [if_pos hc]
      exact ⟨iff_of_true rfl hc, fun h => absurd hc h⟩
    · rw [if_neg hc]
      exact ⟨iff_of_false (by simp) hc, fun _ => rfl⟩

/-- C1 witness: a gap between hits of two different segments with even
updated winding emits exactly the described span. -/
theorem span_emission_rule_witness :
    (resetState ⟨0, some ⟨0, 0, 0, 1, 0⟩, 1⟩ ⟨3, 0, 0, 1, 1⟩).last =
        some ⟨0, 0, 0, 1, 0⟩ ∧
      SpanCondProp ⟨0, 0, 0, 1, 0⟩ ⟨3, 0, 0, 1, 1⟩
        (resetState ⟨0, some ⟨0, 0, 0, 1, 0⟩, 1⟩ ⟨3, 0, 0, 1, 1⟩).winding ∧
      (stepRegions ⟨0, some ⟨0, 0, 0, 1, 0⟩, 1⟩ ⟨3, 0, 0, 1, 1⟩).1 =
        [Region.Boundary 3 0, Region.Span 1 3 0] :=
  ⟨by decide, by decide,
    ((span_emission_rule ⟨0, some ⟨0, 0, 0, 1, 0⟩, 1⟩ ⟨3, 0, 0, 1, 1⟩).2.2
        ⟨0, 0, 0, 1, 0⟩ (by decide)).1.mpr (by decide)⟩

/-- Every element of `spanOf` is the span between the remembered last hit
and the current hit, and requires a gap. -/
theorem mem_spanOf {s0 : WalkState} {hit : Hit} {r : Region} (h : r ∈ spanOf s0 hit) :
    ∃ lh, s0.last = some lh ∧ r = Region.Span (lh.x + 1) hit.x hit.y ∧
      1 < (lh.x - hit.x).natAbs := by
  rcases hl : s0.last with _ | lh
  · rw [spanOf_eq_nil_of_none s0 hit hl] at h
    cases h
  · rw [spanOf_eq_of_some s0 hit lh hl] at h
    by_cases hc : SpanCondProp lh hit s0.winding
    · rw [if_pos hc] at h
      exact ⟨lh, rfl, List.mem_singleton.mp h, hc.2.1⟩
    · rw [if_neg hc] at h
      cases h

/-- Every boundary in the walk output comes from a hit of the input list. -/
theorem boundary_src : ∀ (hits : List Hit) (s : WalkState) (x y : Int),
    Region.Boundary x y ∈ regionsAux s hits → ∃ h, h ∈ hits ∧ h.x = x ∧ h.y = y := by
  intro hits
  induction hits with
  | nil => intro s x y h; cases h
  | cons a t ih =>
    intro s x y h
    simp only [regionsAux] at h
    rcases List.mem_append.mp h with h1 | h1
    · rw [stepRegions_fst] at h1
      rcases List.mem_cons.mp h1 with heq | h2
      · injection heq with hx2 hy2
        exact ⟨a, List.mem_cons_self a t, hx2.symm, hy2.symm⟩
      · obtain ⟨lh, _, hr, _⟩ := mem_spanOf h2
        exact absurd hr (by simp)
    · obtain ⟨h0, hmem, hx, hy⟩ := ih _ x y h1
      exact ⟨h0, List.mem_cons_of_mem _ hmem, hx, hy⟩

/-- Every span in the walk output either pairs the starting state's
remembered hit with the first hit of the list, or an adjacent pair of input
hits on one row, always with a gap. -/
theorem span_src : ∀ (hits : List Hit) (s : WalkState) (sx ex sy : Int),
    Region.Span sx ex sy ∈ regionsAux s hits →
    (∃ lh h hs2, s.last = some lh ∧ hits = h :: hs2 ∧ h.y = s.y ∧
      sx = lh.x + 1 ∧ ex = h.x ∧ sy = h.y ∧ 1 < (lh.x - h.x).natAbs) ∨
    (∃ l1 a b l2, hits = l1 ++ a :: b :: l2 ∧ b.y = a.y ∧
      sx = a.x + 1 ∧ ex = b.x ∧ sy = b.y ∧ 1 < (a.x - b.x).natAbs) := by
  intro hits
  induction hits with
  | nil => intro s sx ex sy h; cases h
  | cons a t ih =>
    intro s sx ex sy h
    simp only [regionsAux] at h
    rcases List.mem_append.mp h with h1 | h1
    · rw [stepRegions_fst] at h1
      rcases List.mem_cons.mp h1 with heq | h2
      · exact absurd heq (by simp)
      · obtain ⟨lh, hl, hr, hgap⟩ := mem_spanOf h2
        obtain ⟨hsl, hys⟩ := resetState_last_some s a lh hl
        left
        injection hr with e1 e2 e3
        exact ⟨lh, a, t, hsl, rfl, hys, e1, e2, e3, hgap⟩
    · rcases ih (stepRegions s a).2 sx ex sy h1 with
        ⟨lh, h2, hs2, hl, ht, hy2, e1, e2, e3, hgap⟩ |
        ⟨l1, c, d, l2, ht, hyy, e1, e2, e3, hgap⟩
      · have hla : some a = some lh := hl
        injection hla with hla2
        subst hla2
        have hy2a : h2.y = a.y := hy2
        right
        refine ⟨[], a, h2, hs2, ?_, hy2a, e1, e2, e3, hgap⟩
        rw [ht]
        rfl
      · right
        refine ⟨a :: l1, c, d, l2, ?_, hyy, e1, e2, e3, hgap⟩
        rw [ht]
        rfl

theorem pix_avoid_insertHit_iff (c x : Hit) (acc : List Hit)
    (hacc : List.Pairwise pixLt acc) :
    (∀ b ∈ insertHit c acc, ¬(b.y = x.y ∧ b.x = x.x)) ↔
      (¬(c.y = x.y ∧ c.x = x.x) ∧ ∀ b ∈ acc, ¬(b.y = x.y ∧ b.x = x.x)) := by
  constructor
  · intro hall
    have hacc2 : ∀ b ∈ acc, ¬(b.y = x.y ∧ b.x = x.x) := fun b hb =>
      hall b ((mem_insertHit_iff hacc b).mpr (Or.inl hb))
    refine ⟨?_, hacc2⟩
    by_cases hcmem : ∀ b ∈ acc, ¬(b.y = c.y ∧ b.x = c.x)
    · exact hall c ((mem_insertHit_iff hacc c).mpr (Or.inr ⟨rfl, hcmem⟩))
    · push_neg at hcmem
      obtain ⟨b0, hb0, hbp⟩ := hcmem
      have hq := hacc2 b0 hb0
      intro hcx
      exact hq ⟨hbp.1.trans hcx.1, hbp.2.trans hcx.2⟩
  · rintro ⟨hc, hacc2⟩ b hb
    rcases mem_of_mem_insertHit hb with hb2 | rfl
    · exact hacc2 b hb2
    · exact hc

theorem mem_foldl_insert : ∀ (cs acc : List Hit), List.Pairwise pixLt acc → ∀ x,
    (x ∈ List.foldl (fun l c => insertHit c l) acc cs ↔
      x ∈ acc ∨ ((cs.find? fun c => hitBEq c x) = some x ∧
        ∀ b ∈ acc, ¬(b.y = x.y ∧ b.x = x.x))) := by
  intro cs
  induction cs with
  | nil => intro acc _ x; simp
  | cons c cs ih =>
    intro acc hacc x
    simp only [List.foldl_cons]
    rw [ih (insertHit c acc) (insertHit_sorted hacc) x,
      mem_insertHit_iff hacc x, pix_avoid_insertHit_iff c x acc hacc]
    by_cases hbe : hitBEq c x = true
    · have hbe2 : (fun c2 => hitBEq c2 x) c = true := hbe
      rw [@List.find?_cons_of_pos Hit (fun c2 => hitBEq c2 x) c cs hbe2]
      have hpix : c.x = x.x ∧ c.y = x.y := (hitBEq_iff c x).mp hbe
      constructor
      · rintro ((hx | ⟨rfl, hPc⟩) | ⟨_, hcpix, _⟩)
        · exact Or.inl hx
        · exact Or.inr ⟨rfl, hPc⟩
        · exact absurd ⟨hpix.2, hpix.1⟩ hcpix
      · rintro (hx | ⟨hsome, hAcc⟩)
        · exact Or.inl (Or.inl hx)
        · injection hsome with hcx
          subst hcx
          exact Or.inl (Or.inr ⟨rfl, hAcc⟩)
    · have hbe2 : ¬ (fun c2 => hitBEq c2 x) c = true := hbe
      rw [@List.find?_cons_of_neg Hit (fun c2 => hitBEq c2 x) c cs hbe2]
      have hpix : ¬(c.y = x.y ∧ c.x = x.x) := by
        intro hp; exact hbe ((hitBEq_iff c x).mpr ⟨hp.2, hp.1⟩)
      constructor
      · rintro ((hx | ⟨rfl, hPc⟩) | ⟨hf, _, hAcc⟩)
        · exact Or.inl hx
        · exact absurd ⟨rfl, rfl⟩ hpix
        · exact Or.inr ⟨hf, hAcc⟩
      · rintro (hx | ⟨hf, hAcc⟩)
        · exact Or.inl (Or.inl hx)
        · exact Or.inr ⟨hf, hpix, hAcc⟩

theorem mem_buildHits_iff (cs : List Hit) (x : Hit) :
    x ∈ buildHits cs ↔ (cs.find? fun c => hitBEq c x) = some x := by
  have h := mem_foldl_insert cs [] List.Pairwise.nil x
  simpa [buildHits] using h

theorem pixel_unique_of_sorted : ∀ (l : List Hit), List.Pairwise pixLt l →
    ∀ a ∈ l, ∀ b ∈ l, a.x = b.x → a.y = b.y → a = b := by
  intro l
  induction l with
  | nil => intro _ a ha; cases ha
  | cons c t ih =>
    intro hl a ha b hb hx hy
    rw [List.pairwise_cons] at hl
    obtain ⟨hc, ht⟩ := hl
    rcases List.mem_cons.mp ha with rfl | ha2
    · rcases List.mem_cons.mp hb with rfl | hb2
      · rfl
      · have h := hc b hb2
        simp only [pixLt] at h
        exfalso; omega
    · rcases List.mem_cons.mp hb with rfl | hb2
      · have h := hc a ha2
        simp only [pixLt] at h
        exfalso; omega
      · exact ih ht a ha2 b hb2 hx hy

/-! ### Claim theorems C5, C10 -/

/-- C5: `Hit` equality and hash depend only on the pixel `(x, y)`; the order
is lexicographic on `(y, x)`; consequently the insertion-built global hit
set is strictly sorted in `(y, x)` (rows increasing, columns increasing
within a row) and holds at most one hit per pixel. -/
theorem hit_identity_and_order :
    (∀ a b : Hit, hitBEq a b = true ↔ a.x = b.x ∧ a.y = b.y) ∧
    (∀ a b : Hit, hitBEq a b = true ↔ hitHash a = hitHash b) ∧
    (∀ a b : Hit, hitCmp a b = Ordering.lt ↔
      (a.y < b.y ∨ (a.y = b.y ∧ a.x < b.x))) ∧
    (∀ a b : Hit, hitCmp a b = Ordering.eq ↔ (a.y = b.y ∧ a.x = b.x)) ∧
    (∀ a b : Hit, hitCmp a b = Ordering.gt ↔
      (b.y < a.y ∨ (b.y = a.y ∧ b.x < a.x))) ∧
    (∀ cs : List Hit, List.Pairwise pixLt (buildHits cs)) ∧
    (∀ cs : List Hit, ∀ a ∈ buildHits cs, ∀ b ∈ buildHits cs,
      a.x = b.x → a.y = b.y → a = b) := by
  refine ⟨hitBEq_iff, ?_, ?_, hitCmp_eq_iff, ?_, buildHits_sorted, ?_⟩
  · intro a b
    simp [hitBEq, hitHash, Prod.ext_iff]
  · intro a b
    rw [hitCmp_lt_iff]
    simp [pixLt]
  · intro a b
    rw [hitCmp_gt_iff]
    simp [pixLt]
  · intro cs a ha b hb hx hy
    exact pixel_unique_of_sorted (buildHits cs) (buildHits_sorted cs) a ha b hb hx hy

/-- C5 witness: two candidates on the same pixel collapse; the set retains
a single hit for the pixel. -/
theorem hit_identity_and_order_witness :
    (⟨0, 0, 0, 1, 0⟩ : Hit) ∈ buildHits [⟨0, 0, 0, 1, 0⟩, ⟨0, 0, 2, 3, 7⟩] ∧
      (⟨0, 0, 0, 1, 0⟩ : Hit) = ⟨0, 0, 0, 1, 0⟩ :=
  ⟨by decide,
    hit_identity_and_order.2.2.2.2.2.2 [⟨0, 0, 0, 1, 0⟩, ⟨0, 0, 2, 3, 7⟩]
      ⟨0, 0, 0, 1, 0⟩ (by decide) ⟨0, 0, 0, 1, 0⟩ (by decide) rfl rfl⟩

/-- C10: a hit is in the global set exactly when it is the first candidate
with its pixel in insertion order (segments in id order, and `t`-order
within a segment, here the concatenation order); every later candidate for
an occupied pixel is discarded whole. -/
theorem first_candidate_survives (segs : List (List Hit)) (x : Hit) :
    x ∈ buildHits segs.flatten ↔
      (segs.flatten.find? fun c => hitBEq c x) = some x :=
  mem_buildHits_iff segs.flatten x

/-- The one-hit output of the walk is nil-span or a single span. -/
theorem spanOf_cases (s0 : WalkState) (hit : Hit) :
    spanOf s0 hit = [] ∨ ∃ lh, s0.last = some lh ∧
      spanOf s0 hit = [Region.Span (lh.x + 1) hit.x hit.y] := by
  rcases hl : s0.last with _ | lh
  · exact Or.inl (spanOf_eq_nil_of_none s0 hit hl)
  · by_cases hc : SpanCondProp lh hit s0.winding
    · exact Or.inr ⟨lh, rfl, by rw [spanOf_eq_of_some s0 hit lh hl, if_pos hc]⟩
    · exact Or.inl (by rw [spanOf_eq_of_some s0 hit lh hl, if_neg hc])

/-- The strict order that the emitted region stream satisfies. -/
def regionLt (a b : Region) : Prop := tripleLt (regionTriple a) (regionTriple b)

theorem chain_regionsAux : ∀ (hits : List Hit) (s : WalkState),
    List.Pairwise pixLt hits → List.Chain' regionLt (regionsAux s hits) := by
  intro hits
  induction hits with
  | nil => intro s _; exact List.chain'_nil
  | cons a t ih =>
    intro s hp
    rw [List.pairwise_cons] at hp
    obtain ⟨ha, ht⟩ := hp
    simp only [regionsAux]
    rw [List.chain'_append]
    refine ⟨?_, ih _ ht, ?_⟩
    · rw [stepRegions_fst]
      rcases spanOf_cases (resetState s a) a with hnil | ⟨lh, _, hone⟩
      · rw [hnil]
        exact List.chain'_singleton _
      · rw [hone]
        refine List.chain'_cons.mpr ⟨?_, List.chain'_singleton _⟩
        simp [regionLt, regionTriple, tripleLt]
    · intro x hx y hy
      cases t with
      | nil => simp [regionsAux] at hy
      | cons b t2 =>
        have hhead : (regionsAux (stepRegions s a).2 (b :: t2)).head? =
            some (Region.Boundary b.x b.y) := rfl
        rw [hhead, Option.mem_def] at hy
        injection hy with hy2
        subst hy2
        have hab : pixLt a b := ha b (List.mem_cons_self _ _)
        rw [stepRegions_fst] at hx
        rcases spanOf_cases (resetState s a) a with hnil | ⟨lh, _, hone⟩
        · rw [hnil] at hx
          have hgl : [Region.Boundary a.x a.y].getLast? =
              some (Region.Boundary a.x a.y) := rfl
          rw [hgl, Option.mem_def] at hx
          injection hx with hx2
          subst hx2
          simp only [pixLt] at hab
          simp only [regionLt, regionTriple, tripleLt]
          omega
        · rw [hone] at hx
          have hgl : [Region.Boundary a.x a.y,
              Region.Span (lh.x + 1) a.x a.y].getLast? =
              some (Region.Span (lh.x + 1) a.x a.y) := rfl
          rw [hgl, Option.mem_def] at hx
          injection hx with hx2
          subst hx2
          simp only [pixLt] at hab
          simp only [regionLt, regionTriple, tripleLt]
          omega

/-! ### Claim theorem C3 (corrected) -/

/-- C3 counterexample: two hits of different segments on row 0 at `x = 0`
and `x = 3` make the walk emit the span `[1, 3)` after the boundary at
`x = 3`, so the shade-command stream is not strictly ordered by
`(y, start_x)`. -/
theorem shade_commands_claim_order_cex :
    ¬ List.Chain' (fun a b => keyLt (cmdClaimKey a) (cmdClaimKey b))
      (shadeCommands (fun _ _ => 0)
        (buildHits [⟨0, 0, 0, 1, 0⟩, ⟨3, 0, 0, 1, 1⟩])) := by
  have h : shadeCommands (fun _ _ => 0)
      (buildHits [⟨0, 0, 0, 1, 0⟩, ⟨3, 0, 0, 1, 1⟩]) =
      [ShadeCommand.Boundary 0 0 0, ShadeCommand.Boundary 3 0 0,
        ShadeCommand.Span 1 3 0] := by decide
  rw [h]
  intro hc
  rw [List.chain'_cons, List.chain'_cons] at hc
  exact absurd hc.2.1 (by decide)

/-- C3 amended: the shade-command stream is strictly ordered by the key
`(y, e, k)` where `e` is `x` for a boundary and `end_x` for a span and `k`
puts the boundary before the span it ends at; hence boundaries are strictly
ordered by `(y, x)` and rows appear in increasing `y`, but a span sits
immediately after the boundary at its right end, not at its `(y, start_x)`
position. -/
theorem shade_commands_ordered (cov : Int → Int → ℚ) (cs : List Hit) :
    List.Chain' (fun a b => tripleLt (cmdTriple a) (cmdTriple b))
      (shadeCommands cov (buildHits cs)) := by
  have hchain := chain_regionsAux (buildHits cs) ⟨0, none, 0⟩ (buildHits_sorted cs)
  unfold shadeCommands
  rw [List.chain'_map]
  refine List.Chain'.imp ?_ hchain
  intro a b hab
  cases a <;> cases b <;> simpa [regionLt, regionTriple, cmdTriple] using hab

/-! ### Claim theorems C6, C7 -/

/-- C6: every span emitted by the region walk over a hit set built by
insertion (hence strictly sorted by pixel) is non-empty under half-open
semantics: `end_x > start_x`. -/
theorem span_nonempty (cs : List Hit) (sx ex sy : Int)
    (h : Region.Span sx ex sy ∈ regions (buildHits cs)) : sx < ex := by
  have hsort := buildHits_sorted cs
  rcases span_src (buildHits cs) ⟨0, none, 0⟩ sx ex sy h with
    ⟨lh, hh, hs2, hl, _⟩ | ⟨l1, a, b, l2, ht, hyy, e1, e2, e3, hgap⟩
  · exact absurd hl (by simp)
  · rw [ht] at hsort
    have hab : pixLt a b := by
      have hparts := List.pairwise_append.mp hsort
      have h2 := hparts.2.1
      rw [List.pairwise_cons] at h2
      exact h2.1 b (List.mem_cons_self _ _)
    simp only [pixLt] at hab
    omega

/-- C6 witness. -/
theorem span_nonempty_witness :
    Region.Span 1 3 0 ∈
        regions (buildHits [⟨0, 0, 0, 1, 0⟩, ⟨3, 0, 0, 1, 1⟩]) ∧
      (1 : Int) < 3 :=
  ⟨by decide,
    span_nonempty [⟨0, 0, 0, 1, 0⟩, ⟨3, 0, 0, 1, 1⟩] 1 3 0 (by decide)⟩

/-- C7: no pixel emitted as a boundary lies inside the half-open range of a
span of the same row. -/
theorem boundary_not_in_span (cs : List Hit) (xb yb sx ex sy : Int)
    (hb : Region.Boundary xb yb ∈ regions (buildHits cs))
    (hs : Region.Span sx ex sy ∈ regions (buildHits cs))
    (hy : yb = sy) : ¬(sx ≤ xb ∧ xb < ex) := by
  have hsort := buildHits_sorted cs
  obtain ⟨c, hcmem, hcx, hcy⟩ := boundary_src (buildHits cs) ⟨0, none, 0⟩ xb yb hb
  rcases span_src (buildHits cs) ⟨0, none, 0⟩ sx ex sy hs with
    ⟨lh, _, _, hl, _⟩ | ⟨l1, a, b, l2, ht, hyy, e1, e2, e3, hgap⟩
  · exact absurd hl (by simp)
  · rw [ht] at hsort hcmem
    obtain ⟨hp1, hp2, hcross⟩ := List.pairwise_append.mp hsort
    rw [List.pairwise_cons] at hp2
    obtain ⟨hpa, hp3⟩ := hp2
    rw [List.pairwise_cons] at hp3
    obtain ⟨hpb, _⟩ := hp3
    rcases List.mem_append.mp hcmem with hcl | hcr
    · have hlt := hcross c hcl a (List.mem_cons_self _ _)
      simp only [pixLt] at hlt
      omega
    · rcases List.mem_cons.mp hcr with rfl | hcr2
      · omega
      · rcases List.mem_cons.mp hcr2 with rfl | hcr3
        · omega
        · have hlt := hpb c hcr3
          simp only [pixLt] at hlt
          omega

/-- C7 witness. -/
theorem boundary_not_in_span_witness :
    Region.Boundary 0 0 ∈
        regions (buildHits [⟨0, 0, 0, 1, 0⟩, ⟨3, 0, 0, 1, 1⟩]) ∧
      Region.Span 1 3 0 ∈
        regions (buildHits [⟨0, 0, 0, 1, 0⟩, ⟨3, 0, 0, 1, 1⟩]) ∧
      ¬((1 : Int) ≤ 0 ∧ (0 : Int) < 3) :=
  ⟨by decide, by decide,
    boundary_not_in_span [⟨0, 0, 0, 1, 0⟩, ⟨3, 0, 0, 1, 1⟩] 0 0 1 3 0
      (by decide) (by decide) rfl⟩

/-- C4: every consumed hit emits its boundary unconditionally and first;
the only other region a single hit can emit is the span ending at that hit,
emitted immediately after the boundary. -/
theorem boundary_emission_rule (s : WalkState) (hit : Hit) :
    (stepRegions s hit).1.head? = some (Region.Boundary hit.x hit.y) ∧
    ((stepRegions s hit).1 = [Region.Boundary hit.x hit.y] ∨
      ∃ lh, (resetState s hit).last = some lh ∧
        (stepRegions s hit).1 =
          [Region.Boundary hit.x hit.y, Region.Span (lh.x + 1) hit.x hit.y]) := by
  refine ⟨rfl, ?_⟩
  rcases hl : (resetState s hit).last with _ | lh
  · left
    rw [stepRegions_fst, spanOf_eq_nil_of_none _ _ hl]
  · rw [stepRegions_fst, spanOf_eq_of_some _ hit lh hl]
    by_cases hc : SpanCondProp lh hit (resetState s hit).winding
    · right
      exact ⟨lh, rfl, by rw [if_pos hc]⟩
    · left
      rw [if_neg hc]

/-! ### Degenerate segments and runtime safety (C8) -/

theorem insertRaw_nil (r : RawHit) : insertRaw r [] = [r] := rfl

theorem insertRaw_cons (r a : RawHit) (t : List RawHit) :
    insertRaw r (a :: t) =
      match rawCmp r a with
      | Ordering.lt => r :: a :: t
      | Ordering.eq => a :: t
      | Ordering.gt => a :: insertRaw r t := rfl

theorem degenerateRawHits_eq (px py : ℚ) :
    degenerateRawHits px py = [⟨px, py, 0⟩, ⟨px, py, 1⟩] := by
  have h : rawCmp ⟨px, py, 1⟩ ⟨px, py, 0⟩ = Ordering.gt := by
    have h1 : ¬(|(1 : ℚ) - 0| ≤ EPS10) := by rw [EPS10]; norm_num
    have h2 : ¬((1 : ℚ) < 0) := by norm_num
    simp only [rawCmp]
    rw [if_neg h1, if_neg h2]
  unfold degenerateRawHits
  rw [insertRaw_nil, insertRaw_cons, h]
  rfl

theorem degenerateSegmentHits_eq (px py : ℚ) (segId : Nat) :
    degenerateSegmentHits px py segId =
      [⟨Int.floor px, Int.floor py, py, py, segId⟩] := by
  unfold degenerateSegmentHits
  rw [degenerateRawHits_eq]
  unfold hitsFromRaw pairsOf
  simp [minMax, min_self, max_self, add_self_div_two]

theorem gridLinesIn_point (q : ℚ) : gridLinesIn q q = [] := by
  unfold gridLinesIn
  rcases lt_or_eq_of_le (Int.floor_le_ceil q) with h | h
  · have h0 : (Int.floor q - Int.ceil q + 1).toNat = 0 := by
      apply Int.toNat_of_nonpos
      omega
    rw [h0]
    rfl
  · have hq : ((Int.ceil q : Int) : ℚ) = q := by
      have h1 : ((Int.floor q : Int) : ℚ) ≤ q := Int.floor_le q
      have h2 : q ≤ ((Int.ceil q : Int) : ℚ) := Int.le_ceil q
      rw [← h] at h2 ⊢
      exact (le_antisymm h2 h1).symm
    have h1 : (Int.floor q - Int.ceil q + 1).toNat = 1 := by
      rw [h]
      simp
    rw [h1]
    have hr : List.range 1 = [0] := rfl
    rw [hr]
    simp [hq]

theorem regions_single (h : Hit) : regions [h] = [Region.Boundary h.x h.y] := by
  unfold regions
  simp only [regionsAux]
  rw [stepRegions_fst]
  have hl : (resetState ⟨0, none, 0⟩ h).last = none := by
    unfold resetState
    split <;> rfl
  rw [spanOf_eq_nil_of_none _ _ hl]
  rfl

/-- C8: the region pipeline cannot fail at runtime on well-formed input:
`Hit::partial_cmp` always answers `Some` (so the `unwrap` in `Hit::cmp`
cannot panic); a degenerate segment spans no interior grid lines, so it
contributes exactly the single hit joining its two bookend raw hits, and
the region walk consumes that hit without error, emitting its boundary. -/
theorem no_runtime_failure :
    (∀ a b : Hit, hitCmpOpt a b = some (hitCmp a b)) ∧
    (∀ q : ℚ, gridLinesIn q q = []) ∧
    (∀ px py : ℚ, ∀ segId : Nat,
      degenerateSegmentHits px py segId =
        [⟨Int.floor px, Int.floor py, py, py, segId⟩]) ∧
    (∀ px py : ℚ, ∀ segId : Nat,
      regions (degenerateSegmentHits px py segId) =
        [Region.Boundary (Int.floor px) (Int.floor py)]) := by
  refine ⟨hitCmpOpt_eq, gridLinesIn_point, degenerateSegmentHits_eq, ?_⟩
  intro px py segId
  rw [degenerateSegmentHits_eq, regions_single]

/-! ### RawHit ordering (C9, corrected) -/

theorem rawCmp_eq_iff (a b : RawHit) :
    rawCmp a b = Ordering.eq ↔ |a.t - b.t| ≤ EPS10 := by
  unfold rawCmp
  by_cases h : |a.t - b.t| ≤ EPS10
  · rw [if_pos h]
    exact iff_of_true rfl h
  · rw [if_neg h]
    refine iff_of_false ?_ h
    by_cases h2 : a.t < b.t
    · rw [if_pos h2]; simp
    · rw [if_neg h2]; simp

/-- C9 counterexample: at `t = 0`, `t = 10·ε` and `t = 20·ε` (all exactly
representable in `f32`, with exact differences), `RawHit::cmp` answers
`Equal`, `Equal`, `Less`: its equality is not transitive, so the comparison
is not a lawful total order. -/
theorem rawCmp_not_transitive_cex :
    rawCmp ⟨0, 0, 0⟩ ⟨0, 0, 10 / 2 ^ 23⟩ = Ordering.eq ∧
      rawCmp ⟨0, 0, 10 / 2 ^ 23⟩ ⟨0, 0, 20 / 2 ^ 23⟩ = Ordering.eq ∧
      ¬ rawCmp ⟨0, 0, 0⟩ ⟨0, 0, 20 / 2 ^ 23⟩ = Ordering.eq := by
  refine ⟨?_, ?_, ?_⟩
  · rw [rawCmp_eq_iff, EPS10, abs_le]
    constructor <;> norm_num
  · rw [rawCmp_eq_iff, EPS10, abs_le]
    constructor <;> norm_num
  · rw [rawCmp_eq_iff, EPS10, abs_le]
    intro hcon
    have h1 := hcon.1
    norm_num at h1

/-- C9 amended: `RawHit::cmp` returns `Equal` exactly when
`|a.t − b.t| ≤ 10·ε` and otherwise orders by `t`; it is total, reflexive
and symmetric in its equality, but that equality is not transitive, so the
comparison is not a lawful total order. -/
theorem rawCmp_spec :
    (∀ a b : RawHit, rawCmp a b = Ordering.eq ↔ |a.t - b.t| ≤ EPS10) ∧
    (∀ a b : RawHit,
      rawCmp a b = Ordering.lt ↔ (EPS10 < |a.t - b.t| ∧ a.t < b.t)) ∧
    (∀ a : RawHit, rawCmp a a = Ordering.eq) ∧
    (∀ a b : RawHit, rawCmp a b = Ordering.eq ↔ rawCmp b a = Ordering.eq) ∧
    (∀ a b : RawHit, rawCmp a b = Ordering.lt ∨ rawCmp a b = Ordering.eq ∨
      rawCmp a b = Ordering.gt) := by
  refine ⟨rawCmp_eq_iff, ?_, ?_, ?_, ?_⟩
  · intro a b
    unfold rawCmp
    by_cases h : |a.t - b.t| ≤ EPS10
    · rw [if_pos h]
      exact iff_of_false (by simp) (fun hc => absurd hc.1 (not_lt.mpr h))
    · rw [if_neg h]
      by_cases h2 : a.t < b.t
      · rw [if_pos h2]
        exact iff_of_true rfl ⟨not_le.mp h, h2⟩
      · rw [if_neg h2]
        exact iff_of_false (by simp) (fun hc => h2 hc.2)
  · intro a
    rw [rawCmp_eq_iff]
    rw [sub_self, abs_zero, EPS10]
    norm_num
  · intro a b
    rw [rawCmp_eq_iff, rawCmp_eq_iff, abs_sub_comm]
  · intro a b
    unfold rawCmp
    by_cases h : |a.t - b.t| ≤ EPS10
    · rw [if_pos h]; exact Or.inr (Or.inl rfl)
    · rw [if_neg h]
      by_cases h2 : a.t < b.t
      · rw [if_pos h2]; exact Or.inl rfl
      · rw [if_neg h2]; exact Or.inr (Or.inr rfl)

end Valora
